import Mathlib

/-!
A shallow embedding of the reltab local query engine (src/src/reltab-local.js)
and proofs of its specified properties.  JavaScript values appearing in table
cells are modelled by `Value` (null, number, string); machine numbers are
modelled as unbounded integers, which is faithful for the small integral data
the engine manipulates.  Thrown JS exceptions are modelled with `Except`.
The `Schema` and `TableRep` value types are imported by the source from a
module that is not part of this repository snapshot; they are modelled from
the spec where so marked.
-/

namespace Reltab

/-- A JavaScript value stored in a table cell: null, a number, or a string. -/
inductive Value where
  | vnull : Value
  | vint : Int → Value
  | vstr : String → Value
deriving DecidableEq, Repr

/-- A table row: an ordered sequence of values positionally aligned with the
schema column order. -/
abbrev Row := List Value

/-- JavaScript coercion of a value to a string (used by the `+` operator). -/
def jsToString : Value → String
  | .vnull => "null"
  | .vint n => toString n
  | .vstr s => s

/-- JavaScript `+` on our value domain: numeric addition on numbers, string
concatenation as soon as a string is involved, `null` coercing to `0` next to
a number. -/
def jsAdd : Value → Value → Value
  | .vint a, .vint b => .vint (a + b)
  | .vnull, .vint b => .vint b
  | .vint a, .vnull => .vint a
  | .vnull, .vnull => .vint 0
  | a, b => .vstr (jsToString a ++ jsToString b)

/-- JSON encoding of a single cell value (`JSON.stringify`); string escaping is
not modelled, the engine only compares these encodings for equality. -/
def jsonOfValue : Value → String
  | .vnull => "null"
  | .vint n => toString n
  | .vstr s => "\"" ++ s ++ "\""

/-- JSON encoding of an array of cell values, as used for grouping keys
(`JSON.stringify(keyData)`). -/
def encodeRow (r : Row) : String :=
  "[" ++ String.intercalate "," (r.map jsonOfValue) ++ "]"

/-- Per-column metadata: the declared type (one of a small closed set) and
display information. -/
structure ColumnMetadata where
  ctype : String
  displayName : String
deriving DecidableEq, Repr

/-- First-match lookup in an insertion-ordered string-keyed map, the model of
property access on a JavaScript object used as a dictionary. -/
def alookup {α : Type} : List (String × α) → String → Option α
  | [], _ => none
  | (k2, v) :: rest, k => if k2 = k then some v else alookup rest k

/-- Modelled from the spec: the Schema value type (imported by the source from
the reltab module, which is not part of this repository snapshot) -- an
ordered sequence of unique column identifiers plus a mapping from identifier
to metadata. -/
structure Schema where
  columns : List String
  columnMetadata : List (String × ColumnMetadata)
deriving DecidableEq, Repr

/-- Index of the first occurrence of an element in a list, if any. -/
def idxOf? (l : List String) (c : String) : Option Nat :=
  match l with
  | [] => none
  | x :: xs => if x = c then some 0 else (idxOf? xs c).map (· + 1)

/-- Modelled from the spec: Schema position lookup by identifier
(`schema.columnIndex`), undefined for identifiers not in the column list. -/
def Schema.columnIndex (s : Schema) (colId : String) : Option Nat :=
  idxOf? s.columns colId

/-- Modelled from the spec: Schema type lookup by identifier
(`schema.columnType`). -/
def Schema.columnType (s : Schema) (colId : String) : Option String :=
  (alookup s.columnMetadata colId).map ColumnMetadata.ctype

/-- Modelled from the spec: a row made addressable by column identifier
(`schema.rowMapFromRow`), pairing the column identifiers with the row values. -/
def Schema.rowMapFromRow (s : Schema) (r : Row) : List (String × Value) :=
  s.columns.zip r

/-- Modelled from the spec: the Table value type -- a schema paired with an
ordered sequence of rows. -/
structure TableRep where
  schema : Schema
  rowData : List Row
deriving DecidableEq, Repr

/-- JavaScript array indexing `row[i]`: out-of-range reads yield `undefined`,
modelled here by the absent value. -/
def rowGet (r : Row) (i : Nat) : Value := r.getD i Value.vnull

/-- d3.permute: `perm.map(i => row[i])`. -/
def permute (r : Row) (perm : List Nat) : Row := perm.map (rowGet r)

/-- A table operator: a function from the list of input tables to the output
table, with thrown exceptions modelled as `Except.error`. -/
abbrev TableOp := List TableRep → Except String TableRep

/-- Validate that every projected column has a metadata entry and compute the
index permutation from input schema order to requested order.  Where the
source would push an undefined index (column with metadata but absent from
the column list) we push an out-of-range index, which reads back as the
absent value exactly as `row[undefined]` does. -/
def calcProjectionPermutation (inSchema : Schema) (projectCols : List String) :
    Except String (List Nat) :=
  match projectCols with
  | [] => .ok []
  | colId :: rest =>
    match alookup inSchema.columnMetadata colId with
    | none => .error ("project: unknown column Id " ++ colId)
    | some _ =>
      let idx := (inSchema.columnIndex colId).getD inSchema.columns.length
      (calcProjectionPermutation inSchema rest).map (fun perm => idx :: perm)

/-- The project operator: output schema is exactly the requested columns with
the metadata map carried over; each output row is the input row permuted by
the computed index list. -/
def projectImpl (projectCols : List String) : TableOp := fun subTables =>
  match subTables with
  | [] => .error "project: no input table"
  | tableData :: _ =>
    (calcProjectionPermutation tableData.schema projectCols).map (fun perm =>
      ⟨⟨projectCols, tableData.schema.columnMetadata⟩,
        tableData.rowData.map (fun r => permute r perm)⟩)

/-- An aggregation accumulator state: either a running sum (SumAgg, numeric
columns) or the text agreement accumulator state (UniqAgg: the `initial` flag
and the current candidate `str`, with the absent value doubling as both the
initial candidate and the collapsed no-consistent-value marker, exactly as
`null` does in the source). -/
inductive AccState where
  | sumA : Value → AccState
  | uniqA : Bool → Value → AccState
deriving DecidableEq, Repr

/-- Accumulator combine (`mplus`).  SumAgg adds the value when it is not null.
UniqAgg records the first non-null value as candidate; otherwise, whenever the
stored candidate differs from the incoming value the candidate becomes null. -/
def AccState.mplus : AccState → Value → AccState
  | .sumA s, x => if x ≠ Value.vnull then .sumA (jsAdd s x) else .sumA s
  | .uniqA initial str, val =>
    if initial = true ∧ val ≠ Value.vnull then .uniqA false val
    else if str ≠ val then .uniqA initial Value.vnull
    else .uniqA initial str

/-- Accumulator finalize: the running sum, or the agreement candidate. -/
def AccState.finalize : AccState → Value
  | .sumA s => s
  | .uniqA _ str => str

/-- Map from column type to the freshly constructed default accumulator
(`defaultAggs`; the source maps to a constructor, each `new` of which yields
exactly this initial state). -/
def defaultAggs : String → Option AccState
  | "integer" => some (.sumA (.vint 0))
  | "real" => some (.sumA (.vint 0))
  | "text" => some (.uniqA true .vnull)
  | _ => none

/-- Construct one fresh accumulator per aggregated column, chosen by the
column declared type (`mkAggAccs`); fails when a column has no metadata entry
(a TypeError in the source) or no registered aggregator. -/
def mkAggAccs (inSchema : Schema) (aggCols : List String) :
    Except String (List AccState) :=
  match aggCols with
  | [] => .ok []
  | colId :: rest =>
    match alookup inSchema.columnMetadata colId with
    | none => .error ("mkAggAccs: no metadata for column " ++ colId)
    | some md =>
      match defaultAggs md.ctype with
      | none => .error ("could not find aggregator for column " ++ colId)
      | some acc => (mkAggAccs inSchema rest).map (fun accs => acc :: accs)

/-- Feed one row of aggregate-column inputs into the accumulators
(the `acc.mplus(aggInData[j - keyData.length])` loop). -/
def accsPlus (accs : List AccState) (vals : List Value) : List AccState :=
  List.zipWith AccState.mplus accs vals

/-- The group map: an insertion-ordered map from encoded grouping key to the
group row, stored as the first-encounter key values paired with the
accumulator states.  JavaScript `for..in` iteration over an object whose keys
all begin with a bracket (JSON-encoded arrays are never array indices)
proceeds in insertion order, which the list order models. -/
abbrev GroupMap := List (String × (List Value × List AccState))

/-- Feed one row into an existing group entry (in-place `mplus` on the
accumulator objects stored in the group row). -/
def gmUpd (gm : GroupMap) (k : String) (aggIn : List Value) : GroupMap :=
  match gm with
  | [] => []
  | (k2, (kd, accs)) :: rest =>
    if k2 = k then (k2, (kd, accsPlus accs aggIn)) :: rest
    else (k2, (kd, accs)) :: gmUpd rest k aggIn

/-- Everything `groupByImpl` precomputes before the row loop. -/
structure GroupByCtx where
  keyPerm : List Nat
  aggPerm : List Nat
  initAccs : List AccState

/-- Finalize one group entry into its output row: the stored first-encounter
key values followed by the finalized accumulator values. -/
def gmOutRow (e : String × (List Value × List AccState)) : List Value :=
  e.2.1 ++ e.2.2.map AccState.finalize

/-- The key tuple of a row (`keyData = d3a.permute(inRow, keyPerm)`). -/
def keyDataOf (ctx : GroupByCtx) (r : Row) : List Value :=
  permute r ctx.keyPerm

/-- The encoded grouping key of a row (`keyStr = JSON.stringify(keyData)`). -/
def rowKey (ctx : GroupByCtx) (r : Row) : String :=
  encodeRow (keyDataOf ctx r)

/-- The aggregate-column inputs of a row
(`aggInData = d3a.permute(inRow, aggColsPerm)`). -/
def aggInOf (ctx : GroupByCtx) (r : Row) : List Value :=
  permute r ctx.aggPerm

/-- Process one input row of the groupBy loop: compute the key tuple and the
aggregate inputs, look the encoded key up in the group map, create the group
on first sight or feed the row into the existing accumulators. -/
def gbStep (ctx : GroupByCtx) (gm : GroupMap) (row : Row) : GroupMap :=
  match alookup gm (rowKey ctx row) with
  | none => gm ++ [(rowKey ctx row, (keyDataOf ctx row,
      accsPlus ctx.initAccs (aggInOf ctx row)))]
  | some _ => gmUpd gm (rowKey ctx row) (aggInOf ctx row)

/-- The groupBy operator: output schema is the key columns followed by the
aggregate columns with the metadata map carried over; rows are grouped by the
JSON encoding of their key tuple and one output row is emitted per group in
first-encounter order, the key values followed by the finalized accumulators.
The source constructs the accumulators lazily at the first sight of each new
group; since every group receives identical fresh initial states this is
hoisted, guarded by the empty-input case in which the source never constructs
any accumulator (and hence cannot fail doing so). -/
def groupByImpl (cols : List String) (aggs : List String) : TableOp :=
  fun subTables =>
  match subTables with
  | [] => .error "groupBy: no input table"
  | tableData :: _ =>
    let inSchema := tableData.schema
    let outSchema : Schema := ⟨cols ++ aggs, inSchema.columnMetadata⟩
    (calcProjectionPermutation inSchema cols).bind (fun keyPerm =>
      (calcProjectionPermutation inSchema aggs).bind (fun aggPerm =>
        (if tableData.rowData.isEmpty then .ok [] else mkAggAccs inSchema aggs).map
          (fun initAccs =>
            let ctx : GroupByCtx := ⟨keyPerm, aggPerm, initAccs⟩
            let gm := tableData.rowData.foldl (gbStep ctx) []
            ⟨outSchema, gm.map gmOutRow⟩)))

/-- A filter value expression: a column reference or a literal constant. -/
inductive ValExp where
  | colRef : String → ValExp
  | constVal : Value → ValExp

mutual
/-- A filter expression: a boolean combinator applied to sub-expressions. -/
inductive FilterExp where
  | mk : String → List SubExp → FilterExp
/-- A filter sub-expression: a relational comparison or a nested combinator. -/
inductive SubExp where
  | relExp : String → ValExp → ValExp → SubExp
  | filterExp : FilterExp → SubExp
end

/-- The boolean combinator tag of a filter expression. -/
def FilterExp.op : FilterExp → String
  | .mk op _ => op

/-- JavaScript `<` restricted to the well-typed comparisons the engine
performs (number with number, string with string); mixed-type coercing
comparisons are outside the data-model invariant and modelled as false. -/
def jsLt : Value → Value → Bool
  | .vint a, .vint b => a < b
  | .vstr a, .vstr b => a < b
  | _, _ => false

/-- JavaScript `<=` under the same well-typedness proviso as `jsLt`. -/
def jsLe : Value → Value → Bool
  | .vint a, .vint b => a ≤ b
  | .vstr a, .vstr b => a ≤ b
  | _, _ => false

/-- The comparison function table of the filter compiler (`relOpFnMap`);
`EQ` is JavaScript strict equality, which on our primitive value domain is
structural equality. -/
def relOpFnMap (op : String) : Option (Value → Value → Bool) :=
  if op = "EQ" then some (fun l r => l = r)
  else if op = "GT" then some (fun l r => jsLt r l)
  else if op = "GE" then some (fun l r => jsLe r l)
  else if op = "LE" then some (fun l r => jsLe l r)
  else if op = "LT" then some (fun l r => jsLt l r)
  else none

/-- Compile a value expression into a row accessor: a column reference reads
the value at the column index (failing at compile time when the identifier is
unknown), a constant always returns its literal. -/
def compileAccessor (schema : Schema) : ValExp → Except String (Row → Value)
  | .colRef colName =>
    match schema.columnIndex colName with
    | none =>
      .error ("compiling filter expression: Unknown column identifier " ++ colName)
    | some idx => .ok (fun row => rowGet row idx)
  | .constVal v => .ok (fun _ => v)

/-- Compile a relational comparison into a row predicate.  An unknown
comparison operator would only fail in the source when the predicate runs on
a row; no claim exercises that path and it is modelled as false. -/
def compileRelOp (schema : Schema) (op : String) (lhs rhs : ValExp) :
    Except String (Row → Bool) :=
  (compileAccessor schema lhs).bind (fun lhsef =>
    (compileAccessor schema rhs).map (fun rhsef =>
      fun row =>
        match relOpFnMap op with
        | some cmpFn => cmpFn (lhsef row) (rhsef row)
        | none => false))

/-- OR combinators are reserved but unimplemented: compiling one throws
immediately, before any row is examined. -/
def compileOrExp (_argExps : List SubExp) : Except String (Row → Bool) :=
  .error "OR expressions - not yet implemented"

mutual
/-- Compile a filter sub-expression. -/
def compileSubExp (schema : Schema) : SubExp → Except String (Row → Bool)
  | .relExp op l r => compileRelOp schema op l r
  | .filterExp fe => compileExp schema fe

/-- Compile a list of sub-expressions in order, failing at the first failure. -/
def compileSubExpList (schema : Schema) :
    List SubExp → Except String (List (Row → Bool))
  | [] => .ok []
  | se :: rest =>
    (compileSubExp schema se).bind (fun p =>
      (compileSubExpList schema rest).map (fun ps => p :: ps))

/-- Compile a boolean combinator: AND compiles the arguments and conjoins
them short-circuit; anything else is routed to the unimplemented OR case,
exactly like the two-way dispatch of the source. -/
def compileExp (schema : Schema) : FilterExp → Except String (Row → Bool)
  | .mk op args =>
    if op = "AND" then
      (compileSubExpList schema args).map (fun ps => fun row => ps.all (· row))
    else compileOrExp args
end

/-- Compile a filter expression against a schema into an executable row
predicate (the source returns it wrapped as the `evalFilterExp` field). -/
def compileFilterExp (schema : Schema) (fexp : FilterExp) :
    Except String (Row → Bool) :=
  compileExp schema fexp

/-- The filter operator: compile the predicate once, keep the schema, keep
exactly the rows satisfying the predicate in order. -/
def filterImpl (fexp : FilterExp) : TableOp := fun subTables =>
  match subTables with
  | [] => .error "filter: no input table"
  | tableData :: _ =>
    (compileFilterExp tableData.schema fexp).map (fun pred =>
      ⟨tableData.schema, tableData.rowData.filter pred⟩)

/-- The third argument of extend: a constant value or a row generator
(a function from the identifier-addressable row to a value). -/
inductive ColumnExtendVal where
  | constV : Value → ColumnExtendVal
  | genV : (List (String × Value) → Value) → ColumnExtendVal

/-- lodash `_.extend(dst, src)`: the destination object updated with every
property of the source, source values overwriting destination values at
colliding keys; observed only through key lookup by the engine. -/
def jsExtend {α : Type} (dst src : List (String × α)) : List (String × α) :=
  dst.map (fun e => (e.1, (alookup src e.1).getD e.2))
    ++ src.filter (fun e => (alookup dst e.1).isNone)

/-- The extend operator: append the new column identifier to the schema, merge
the supplied metadata with the input metadata via `_.extend(cMap, inMeta)`
(so a pre-existing entry for the identifier overwrites the supplied one), and
append to each row either the constant or the generator applied to the
identifier-addressable row. -/
def extendImpl (colId : String) (columnMetadata : ColumnMetadata)
    (ev : ColumnExtendVal) : TableOp := fun subTables =>
  match subTables with
  | [] => .error "extend: no input table"
  | tableData :: _ =>
    let inSchema := tableData.schema
    let outCols := inSchema.columns ++ [colId]
    let outMetadata := jsExtend [(colId, columnMetadata)] inSchema.columnMetadata
    let outRows := tableData.rowData.map (fun inRow =>
      inRow ++ [match ev with
        | .genV f => f (inSchema.rowMapFromRow inRow)
        | .constV v => v])
    .ok ⟨⟨outCols, outMetadata⟩, outRows⟩

/-- The concat operator, parameterized by the Schema compatibility check
(a method of the externally supplied Schema type): the result starts as the
first table, and each subsequent table is compatibility-checked against the
first schema and its rows appended.  The source also receives the query
expression as an unused configuration argument, omitted here. -/
def concatImpl (compatCheck : Schema → Schema → Except String Unit) : TableOp :=
  fun subTables =>
  match subTables with
  | [] => .error "concat: no input table"
  | tbl :: rest =>
    rest.foldlM (fun res t =>
      (compatCheck res.schema t.schema).map
        (fun _ => ⟨res.schema, res.rowData ++ t.rowData⟩))
      ⟨tbl.schema, tbl.rowData⟩

/-- String comparison of the sort compiler (`strcmp`), ternary on `<` and `>`;
restricted to its well-typed use on text columns. -/
def strcmp (a b : Value) : Int :=
  match a, b with
  | .vstr x, .vstr y => if x < y then -1 else if y < x then 1 else 0
  | _, _ => 0

/-- Numeric difference comparison of the sort compiler (`numcmp`); restricted
to its well-typed use on numeric columns. -/
def numcmp (a b : Value) : Int :=
  match a, b with
  | .vint x, .vint y => x - y
  | _, _ => 0

/-- The per-type comparison table of the sort compiler (`cmpFnMap`).  A type
outside the table would only fail in the source when the comparator runs; no
claim exercises that path and it is modelled as always-equal. -/
def cmpFnMap (colType : String) : Value → Value → Int :=
  if colType = "text" then strcmp
  else if colType = "integer" ∨ colType = "real" then numcmp
  else fun _ _ => 0

/-- Swap the arguments of a value comparator (descending keys). -/
def reverseArgs (cfn : Value → Value → Int) : Value → Value → Int :=
  fun v1 v2 => cfn v2 v1

/-- Chain one sort key in front of a tie-break comparator (`mkRowCompFn`). -/
def mkRowCompFn (valCmpFn : Value → Value → Int) (idx : Nat)
    (nextFunc : Row → Row → Int) : Row → Row → Int :=
  fun rowa rowb =>
    let ret := valCmpFn (rowGet rowa idx) (rowGet rowb idx)
    if ret = 0 then nextFunc rowa rowb else ret

/-- Build the composite row comparator: a right-to-left fold over the keys so
the left-most key has highest precedence, each key comparing its column with
the type-appropriate base comparator, reversed when descending.  A key naming
an unknown column reads the absent value from every row, as `row[undefined]`
does in the source. -/
def compileSortFunc (schema : Schema) (keys : List (String × Bool)) :
    Row → Row → Int :=
  keys.foldr (fun key next =>
    let idx := (schema.columnIndex key.1).getD schema.columns.length
    let valCmp0 := cmpFnMap ((schema.columnType key.1).getD "")
    let valCmp := if key.2 then valCmp0 else reverseArgs valCmp0
    mkRowCompFn valCmp idx next) (fun _ _ => 0)

/-- Stable insertion of a row into an already sorted list: the row passes the
entries strictly smaller than it and stops in front of the first entry not
smaller, so an element inserted later never overtakes an equal one. -/
def jsInsert (cmp : Row → Row → Int) (x : Row) : List Row → List Row
  | [] => [x]
  | y :: ys => if cmp x y ≤ 0 then x :: y :: ys else y :: jsInsert cmp x ys

/-- `Array.prototype.sort` on a copy of the row array.  ECMAScript (2019+)
requires sort to be stable, and for a consistent comparator the stable sorted
permutation is unique, so any stable sorting algorithm is a faithful model;
a stable insertion sort is used. -/
def jsSort (cmp : Row → Row → Int) : List Row → List Row
  | [] => []
  | x :: xs => jsInsert cmp x (jsSort cmp xs)

/-- The sort operator: compile the composite comparator, copy the row
sequence (`rowData.slice()`), sort the copy, and return a new table with the
input schema; the input table value is read but never written. -/
def sortImpl (sortKeys : List (String × Bool)) : TableOp := fun subTables =>
  match subTables with
  | [] => .error "sort: no input table"
  | tableData :: _ =>
    let rsf := compileSortFunc tableData.schema sortKeys
    .ok ⟨tableData.schema, jsSort rsf tableData.rowData⟩

/-- The wire format of a fetched table: `[schemaData, rowData]`. -/
structure JsonTableData where
  columns : List String
  columnMetadata : List (String × ColumnMetadata)
  rowData : List Row

/-- loadTable: fetch the named table and build a TableRep from the JSON
payload.  The rejection handler of the source logs the error and returns no
value, so a failed fetch RESOLVES the promise with `undefined` (modelled as
`Except.ok none`) instead of propagating the failure. -/
def loadTable (fetchResult : Except String JsonTableData) :
    Except String (Option TableRep) :=
  match fetchResult with
  | .ok jsonData =>
    .ok (some ⟨⟨jsonData.columns, jsonData.columnMetadata⟩, jsonData.rowData⟩)
  | .error _ => .ok none

/-- A literal (non-table) argument of a query expression node: a JSON datum,
or an executable function value (as with a computed extend column), which
`JSON.stringify` cannot encode.  Distinct function values are distinguished
by an identifier, reflecting that two different functions need not be equal
while the encoding cannot tell them apart. -/
inductive LitVal where
  | lnull : LitVal
  | lbool : Bool → LitVal
  | lint : Int → LitVal
  | lstr : String → LitVal
  | lfunc : Nat → LitVal
  | larr : List LitVal → LitVal
  | lobj : List (String × LitVal) → LitVal

mutual
/-- `JSON.stringify` of one literal: `none` models `undefined`, which is what
stringification of a function value yields.  Inside an array an unserializable
element renders as `null`; inside an object the property is omitted. -/
def jsonOfLit : LitVal → Option String
  | .lnull => some "null"
  | .lbool b => some (if b then "true" else "false")
  | .lint n => some (toString n)
  | .lstr s => some ("\"" ++ s ++ "\"")
  | .lfunc _ => none
  | .larr xs => some ("[" ++ String.intercalate "," (jsonOfLitList xs) ++ "]")
  | .lobj fs => some ("\x7b" ++ String.intercalate "," (jsonOfLitFields fs) ++ "\x7d")

/-- Array elements: an element that stringifies to `undefined` renders `null`. -/
def jsonOfLitList : List LitVal → List String
  | [] => []
  | v :: rest => (jsonOfLit v).getD "null" :: jsonOfLitList rest

/-- Object properties: a property whose value stringifies to `undefined` is
omitted from the output. -/
def jsonOfLitFields : List (String × LitVal) → List String
  | [] => []
  | (k, v) :: rest =>
    match jsonOfLit v with
    | some s => ("\"" ++ k ++ "\":" ++ s) :: jsonOfLitFields rest
    | none => jsonOfLitFields rest
end

/-- `JSON.stringify(query.valArgs)`: the literal argument list rendered as a
JSON array. -/
def jsonOfArgs (args : List LitVal) : String :=
  "[" ++ String.intercalate "," (jsonOfLitList args) ++ "]"

/-- A query expression node: operator tag, literal arguments, child table
expressions. -/
inductive QueryExp where
  | mk : String → List LitVal → List QueryExp → QueryExp

/-- The operator tag of a query node. -/
def QueryExp.operator : QueryExp → String
  | .mk op _ _ => op

/-- The literal arguments of a query node. -/
def QueryExp.valArgs : QueryExp → List LitVal
  | .mk _ va _ => va

/-- The child table expressions of a query node. -/
def QueryExp.tableArgs : QueryExp → List QueryExp
  | .mk _ _ ta => ta

/-- A query node annotated with the value numbers of its children. -/
structure NumberedExp where
  exp : QueryExp
  tableNums : List Nat

/-- JavaScript `Array.prototype.toString`: comma-joined elements. -/
def numsToString (nums : List Nat) : String :=
  String.intercalate "," (nums.map toString)

/-- The canonical structural signature of a node: operator tag, encoded child
value numbers, and the JSON encoding of the literal arguments, in the exact
concrete syntax the source concatenates. -/
def expKey (op : String) (nums : List Nat) (valArgs : List LitVal) : String :=
  op ++ "( [ " ++ numsToString nums ++ " ], " ++ jsonOfArgs valArgs ++ " )"

/-- The CSE evaluator state grown by `buildCSEMap`: the signature-to-value-
number map and the append-only numbered expression list (a value number is
its index). -/
structure CSEState where
  invMap : List (String × Nat)
  valExps : List NumberedExp

/-- The empty evaluator state (a fresh `CSEEvaluator`). -/
def emptyCSE : CSEState := ⟨[], []⟩

mutual
/-- Depth-first, children-first value numbering (`buildCSEMap`): number the
children, form the structural signature, reuse its value number on a hit, or
append a new numbered expression and record the signature on a miss.  Returns
the node value number and the grown state. -/
def buildCSEMap : QueryExp → CSEState → Nat × CSEState
  | .mk op va ta, s =>
    let r := buildCSEMapList ta s
    let key := expKey op r.1 va
    match alookup r.2.invMap key with
    | some valNum => (valNum, r.2)
    | none =>
      let valNum := r.2.valExps.length
      (valNum, ⟨r.2.invMap ++ [(key, valNum)],
                r.2.valExps ++ [⟨.mk op va ta, r.1⟩]⟩)

/-- Number a list of children left to right, threading the state. -/
def buildCSEMapList : List QueryExp → CSEState → List Nat × CSEState
  | [], s => ([], s)
  | q :: qs, s =>
    let r1 := buildCSEMap q s
    let r2 := buildCSEMapList qs r1.2
    (r1.1 :: r2.1, r2.2)
end

/-- The memoization state of `evalTable`: per value number, the stored
pending-or-completed computation (`promises`, with `none` for absent), and --
for the verification -- how many times the computation of that value number was
actually started. -/
structure EvalState (α : Type) where
  promises : Nat → Option α
  counts : Nat → Nat

/-- The fresh evaluation state: no promise stored, nothing executed. -/
def initEvalState (α : Type) : EvalState α :=
  ⟨fun _ => none, fun _ => 0⟩

/-- Store the freshly started computation of a value number and count the
start. -/
def setPromise {α : Type} (st : EvalState α) (tableId : Nat) (r : α) :
    EvalState α :=
  ⟨fun j => if j = tableId then some r else st.promises j,
   fun j => if j = tableId then st.counts j + 1 else st.counts j⟩

mutual
/-- Memoized dependency-ordered evaluation (`evalTable`), with the base and
interior evaluators (`evalBaseExp` / `evalInteriorExp ∘ Promise.all`)
abstracted as `eb` / `ei` over an arbitrary result type: on a stored promise
return it unchanged; otherwise evaluate the children depth-first, start this
computation of this node, and store it.  The `fuel` argument only bounds the
recursion of the model; any fuel exceeding the value number is enough, because a
children of a node always carry strictly smaller value numbers.  `none` results
arise only from exhausted fuel or a dangling value number. -/
def evalTable {α : Type} (eb : NumberedExp → α)
    (ei : NumberedExp → List α → α) (ve : List NumberedExp) :
    Nat → Nat → EvalState α → Option α × EvalState α
  | 0, _, st => (none, st)
  | fuel + 1, tableId, st =>
    match st.promises tableId with
    | some resp => (some resp, st)
    | none =>
      match ve[tableId]? with
      | none => (none, st)
      | some numExp =>
        if numExp.tableNums.length > 0 then
          let r := evalTableList eb ei ve fuel numExp.tableNums st
          match r.1 with
          | some subs =>
            let resp := ei numExp subs
            (some resp, setPromise r.2 tableId resp)
          | none => (none, r.2)
        else
          let resp := eb numExp
          (some resp, setPromise st tableId resp)
termination_by fuel _ _ => (fuel, 0)

/-- Evaluate a list of children left to right, threading the state; succeeds
when every child does. -/
def evalTableList {α : Type} (eb : NumberedExp → α)
    (ei : NumberedExp → List α → α) (ve : List NumberedExp) :
    Nat → List Nat → EvalState α → Option (List α) × EvalState α
  | _, [], st => (some [], st)
  | fuel, tid :: rest, st =>
    let r1 := evalTable eb ei ve fuel tid st
    let r2 := evalTableList eb ei ve fuel rest r1.2
    match r1.1, r2.1 with
    | some v, some vs => (some (v :: vs), r2.2)
    | _, _ => (none, r2.2)
termination_by fuel tids _ => (fuel, tids.length + 1)
end

/-! ### Association list lemmas -/

theorem alookup_append {α : Type} (a b : List (String × α)) (k : String) :
    alookup (a ++ b) k =
      match alookup a k with
      | some v => some v
      | none => alookup b k := by
  induction a with
  | nil => simp [alookup]
  | cons e rest ih =>
    by_cases h : e.1 = k
    · simp [alookup, h]
    · simpa [alookup, h] using ih

theorem alookup_append_of_some {α : Type} {a : List (String × α)} {k : String}
    {v : α} (b : List (String × α)) (h : alookup a k = some v) :
    alookup (a ++ b) k = some v := by
  rw [alookup_append, h]

theorem alookup_append_of_none {α : Type} {a : List (String × α)} {k : String}
    (b : List (String × α)) (h : alookup a k = none) :
    alookup (a ++ b) k = alookup b k := by
  rw [alookup_append, h]

theorem alookup_jsExtend_map {α : Type} (dst src : List (String × α))
    (k : String) :
    alookup (dst.map (fun e => (e.1, (alookup src e.1).getD e.2))) k =
      (alookup dst k).map (fun v => (alookup src k).getD v) := by
  induction dst with
  | nil => simp [alookup]
  | cons e rest ih =>
    by_cases h : e.1 = k
    · simp [alookup, h]
    · simpa [alookup, h] using ih

theorem alookup_jsExtend_filter {α : Type} (dst src : List (String × α))
    (k : String) :
    alookup (src.filter (fun e => (alookup dst e.1).isNone)) k =
      if (alookup dst k).isNone then alookup src k else none := by
  induction src with
  | nil => simp [alookup]
  | cons e rest ih =>
    by_cases h : e.1 = k
    · subst h
      cases hd : (alookup dst e.1).isNone with
      | true => simp [List.filter, hd, alookup]
      | false => simpa [List.filter, hd, alookup] using ih
    · cases hd : (alookup dst e.1).isNone with
      | true => simpa [List.filter, hd, alookup, h] using ih
      | false => simpa [List.filter, hd, alookup, h] using ih

theorem alookup_jsExtend {α : Type} (dst src : List (String × α)) (k : String) :
    alookup (jsExtend dst src) k =
      match alookup src k with
      | some v => some v
      | none => alookup dst k := by
  rw [jsExtend, alookup_append, alookup_jsExtend_map, alookup_jsExtend_filter]
  cases hs : alookup src k with
  | some v =>
    cases hd : alookup dst k with
    | some w => simp [hs, hd]
    | none => simp [hs, hd]
  | none =>
    cases hd : alookup dst k with
    | some w => simp [hs, hd]
    | none => simp [hs, hd]

/-! ### C3: extend -/

/-- Example metadata already present in the input schema for column c. -/
def cmOld : ColumnMetadata := ⟨"integer", "old"⟩

/-- Example metadata supplied to extend for column c. -/
def cmNew : ColumnMetadata := ⟨"integer", "new"⟩

/-- Example input table whose schema already carries a metadata entry for c. -/
def c3Table : TableRep := ⟨⟨["c"], [("c", cmOld)]⟩, []⟩

/-- The table extend produces on `c3Table`. -/
def c3Out : TableRep := ⟨⟨["c", "c"], [("c", cmOld)]⟩, []⟩

/-- C3 counterexample: extending with column id c and supplied metadata
`cmNew` over an input schema that already maps c to `cmOld` yields an output
whose metadata entry for c is still `cmOld` -- the pre-existing entry
overrides the supplied one, not the other way around as the claim states. -/
theorem c3_counterexample :
    ((extendImpl "c" cmNew (.constV .vnull) [c3Table]).toOption.bind
        (fun tOut => alookup tOut.schema.columnMetadata "c")) = some cmOld
      ∧ cmOld ≠ cmNew := by
  decide

/-- C3 (amended): extend appends exactly one new column identifier at the end
of the schema, and the metadata entry for any identifier is the pre-existing
input entry when there is one, the supplied metadata applying only when the
extended identifier is new (the supplied metadata is merged behind, i.e.
overridden by, any pre-existing entry). -/
theorem c3_extend_schema (colId : String) (md : ColumnMetadata)
    (ev : ColumnExtendVal) (t : TableRep) (tOut : TableRep)
    (h : extendImpl colId md ev [t] = Except.ok tOut) :
    tOut.schema.columns = t.schema.columns ++ [colId]
    ∧ ∀ c, alookup tOut.schema.columnMetadata c =
        match alookup t.schema.columnMetadata c with
        | some m => some m
        | none => if colId = c then some md else none := by
  have h2 : tOut = ⟨⟨t.schema.columns ++ [colId],
      jsExtend [(colId, md)] t.schema.columnMetadata⟩,
      t.rowData.map (fun inRow =>
        inRow ++ [match ev with
          | .genV f => f (t.schema.rowMapFromRow inRow)
          | .constV v => v])⟩ := by
    have := h.symm
    simpa [extendImpl] using this
  subst h2
  refine ⟨rfl, fun c => ?_⟩
  rw [alookup_jsExtend]
  cases hs : alookup t.schema.columnMetadata c with
  | some m => simp
  | none => simp [alookup]

/-- C3 witness: the amended theorem applied to the concrete example table. -/
theorem c3_extend_schema_witness :
    (extendImpl "c" cmNew (.constV .vnull) [c3Table] = Except.ok c3Out)
    ∧ (c3Out.schema.columns = c3Table.schema.columns ++ ["c"]
      ∧ ∀ c, alookup c3Out.schema.columnMetadata c =
          match alookup c3Table.schema.columnMetadata c with
          | some m => some m
          | none => if "c" = c then some cmNew else none) :=
  ⟨rfl, c3_extend_schema "c" cmNew (.constV .vnull) c3Table c3Out rfl⟩

/-! ### C4: the text agreement accumulator -/

/-- The initial UniqAgg state (`new UniqAgg()`). -/
def uniqInit : AccState := .uniqA true .vnull

/-- Feed a sequence of values to a fresh text agreement accumulator and
finalize. -/
def runUniq (vals : List Value) : Value :=
  (vals.foldl AccState.mplus uniqInit).finalize

/-- C4 counterexample: an absent value arriving after the present candidate
"a" is NOT ignored -- it collapses the candidate, so the sequence
["a", null] finalizes to absence rather than to "a" as the claim states. -/
theorem c4_counterexample :
    runUniq [Value.vstr "a", Value.vnull] = Value.vnull
      ∧ Value.vnull ≠ Value.vstr "a" := by
  decide

/-- C4 (amended): the first present value becomes the candidate; after a
candidate is recorded, ANY differing value -- a disagreeing present value or
an absent value -- collapses the candidate to absence, and the collapse is
permanent; absent values are ignored only while no present value has been
seen; finalize returns the candidate; ["a","a","a"] finalizes to "a" and
["a","b"] finalizes to absence. -/
theorem c4_uniq_agg :
    (∀ k, (List.replicate k Value.vnull).foldl AccState.mplus uniqInit = uniqInit)
    ∧ (∀ v, v ≠ Value.vnull → AccState.mplus uniqInit v = .uniqA false v)
    ∧ (∀ v, AccState.mplus (.uniqA false v) v = .uniqA false v)
    ∧ (∀ v w, v ≠ w → AccState.mplus (.uniqA false v) w = .uniqA false Value.vnull)
    ∧ (∀ vs : List Value, vs.foldl AccState.mplus (.uniqA false Value.vnull) =
        .uniqA false Value.vnull)
    ∧ runUniq [Value.vstr "a", Value.vstr "a", Value.vstr "a"] = Value.vstr "a"
    ∧ runUniq [Value.vstr "a", Value.vstr "b"] = Value.vnull := by
  refine ⟨?_, ?_, ?_, ?_, ?_, by decide, by decide⟩
  · intro k
    induction k with
    | zero => rfl
    | succ n ih => simpa [List.replicate_succ, AccState.mplus, uniqInit] using ih
  · intro v hv
    simp [AccState.mplus, uniqInit, hv]
  · intro v
    simp [AccState.mplus]
  · intro v w hvw
    simp [AccState.mplus, hvw]
  · intro vs
    induction vs with
    | nil => rfl
    | cons w rest ih =>
      have hstep : AccState.mplus (.uniqA false Value.vnull) w =
          .uniqA false Value.vnull := by
        by_cases hw : Value.vnull = w
        · simp [AccState.mplus, hw]
        · simp [AccState.mplus, hw]
      simpa [hstep] using ih

/-- C4 witness: the amended theorem applied to a concrete present value. -/
theorem c4_uniq_agg_witness :
    Value.vstr "x" ≠ Value.vnull
    ∧ AccState.mplus uniqInit (Value.vstr "x") = .uniqA false (Value.vstr "x") :=
  ⟨by decide, c4_uniq_agg.2.1 (Value.vstr "x") (by decide)⟩

/-! ### C8: OR filter combinators -/

/-- C8: compiling a filter expression whose boolean combinator is OR fails
immediately at compile time with the NotImplemented error, before any row is
examined; no row predicate is produced. -/
theorem c8_or_not_implemented (schema : Schema) (args : List SubExp) :
    compileFilterExp schema (.mk "OR" args) =
      Except.error "OR expressions - not yet implemented" := by
  simp [compileFilterExp, compileExp, compileOrExp]

/-! ### C9: table load failures -/

/-- C9 evidence: a failed fetch is swallowed by loadTable -- the rejection
handler logs and returns no value, so the asynchronous result RESOLVES with
the absent value instead of failing, for every error. -/
theorem c9_load_failure_swallowed (e : String) :
    loadTable (Except.error e) = Except.ok none := rfl

/-! ### C10: concat of a single table -/

/-- C10: concat applied to the single-element table list is the identity --
the output carries the input schema and row data unchanged -- and holds for
EVERY compatibility check (in particular one that always fails), so the
schema compatibility check is never consulted and concat of one table cannot
fail with a schema error. -/
theorem c10_concat_singleton_identity
    (compatCheck : Schema → Schema → Except String Unit) (t : TableRep) :
    concatImpl compatCheck [t] = Except.ok t := rfl

/-! ### C7: project onto the full column list -/

theorem idxOf?_isSome_of_mem {l : List String} {c : String} (h : c ∈ l) :
    (idxOf? l c).isSome := by
  induction l with
  | nil => cases h
  | cons x xs ih =>
    by_cases hx : x = c
    · simp [idxOf?, hx]
    · have hm : c ∈ xs := by
        cases h with
        | head => exact absurd rfl hx
        | tail _ hmem => exact hmem
      cases ho : idxOf? xs c with
      | none => rw [ho] at ih; simp at ih; exact absurd (ih hm) (by simp)
      | some k => simp [idxOf?, hx, ho]

theorem idxOf?_nodup_map {l : List String} (hnd : l.Nodup) (d : Nat) :
    l.map (fun c => (idxOf? l c).getD d) = List.range l.length := by
  induction l with
  | nil => rfl
  | cons x xs ih =>
    have hx : x ∉ xs := (List.nodup_cons.mp hnd).1
    have hxs : xs.Nodup := (List.nodup_cons.mp hnd).2
    have hhead : (idxOf? (x :: xs) x).getD d = 0 := by simp [idxOf?]
    have htail : xs.map (fun c => (idxOf? (x :: xs) c).getD d) =
        (xs.map (fun c => (idxOf? xs c).getD d)).map (· + 1) := by
      rw [List.map_map]
      refine List.map_congr_left (fun c hc => ?_)
      have hne : x ≠ c := fun hxc => hx (hxc ▸ hc)
      have hs := idxOf?_isSome_of_mem hc
      cases ho : idxOf? xs c with
      | none => rw [ho] at hs; simp at hs
      | some k => simp [idxOf?, hne, ho]
    have hr : List.range (xs.length + 1) =
        0 :: (List.range xs.length).map (· + 1) := by
      rw [List.range_succ_eq_map]
    simp only [List.map_cons, hhead, htail, ih hxs, List.length_cons, hr]

theorem permute_range {r : Row} {n : Nat} (h : r.length = n) :
    permute r (List.range n) = r := by
  subst h
  induction r with
  | nil => rfl
  | cons a rest ih =>
    have hcomp : (rowGet (a :: rest) ∘ Nat.succ) = rowGet rest := by
      funext i
      simp [rowGet]
    show (List.range (a :: rest).length).map (rowGet (a :: rest)) = a :: rest
    rw [List.length_cons, List.range_succ_eq_map, List.map_cons, List.map_map,
      hcomp]
    exact congrArg (List.cons a) ih

theorem calcProjectionPermutation_ok (s : Schema) (cols : List String)
    (h : ∀ c ∈ cols, (alookup s.columnMetadata c).isSome) :
    calcProjectionPermutation s cols =
      Except.ok (cols.map (fun c => (s.columnIndex c).getD s.columns.length)) := by
  induction cols with
  | nil => rfl
  | cons c rest ih =>
    have hc := h c (List.mem_cons_self c rest)
    cases hm : alookup s.columnMetadata c with
    | none => rw [hm] at hc; simp at hc
    | some md =>
      have hrest := ih (fun c2 hc2 => h c2 (List.mem_cons_of_mem c hc2))
      simp [calcProjectionPermutation, hm, hrest, Except.map]

/-- C7: projecting a table onto its full column list, in its existing order,
is the identity transform on both schema and row data. -/
theorem c7_project_identity (t : TableRep)
    (hnd : t.schema.columns.Nodup)
    (hmeta : ∀ c ∈ t.schema.columns, (alookup t.schema.columnMetadata c).isSome)
    (halign : ∀ r ∈ t.rowData, r.length = t.schema.columns.length) :
    projectImpl t.schema.columns [t] = Except.ok t := by
  have hperm := calcProjectionPermutation_ok t.schema t.schema.columns hmeta
  have hrange : t.schema.columns.map
      (fun c => (t.schema.columnIndex c).getD t.schema.columns.length) =
      List.range t.schema.columns.length := by
    simpa [Schema.columnIndex] using
      idxOf?_nodup_map hnd t.schema.columns.length
  have hrows : t.rowData.map
      (fun r => permute r (List.range t.schema.columns.length)) = t.rowData := by
    have := List.map_congr_left (fun r hr => permute_range (halign r hr))
    simpa using this
  simp [projectImpl, hperm, hrange, hrows, Except.map]

/-- Example table for the C7 witness. -/
def c7Table : TableRep :=
  ⟨⟨["a", "b"], [("a", ⟨"integer", "A"⟩), ("b", ⟨"text", "B"⟩)]⟩,
   [[.vint 1, .vstr "x"], [.vint 2, .vstr "y"]]⟩

/-- C7 witness: the identity round trip on a concrete two-column table. -/
theorem c7_project_identity_witness :
    c7Table.schema.columns.Nodup
    ∧ projectImpl c7Table.schema.columns [c7Table] = Except.ok c7Table :=
  ⟨by decide, c7_project_identity c7Table (by decide) (by decide) (by decide)⟩

/-! ### C5: sort -/

theorem jsInsert_perm (cmp : Row → Row → Int) (x : Row) (l : List Row) :
    (jsInsert cmp x l).Perm (x :: l) := by
  induction l with
  | nil => exact List.Perm.refl _
  | cons y ys ih =>
    by_cases h : cmp x y ≤ 0
    · simp [jsInsert, h]
    · rw [jsInsert, if_neg h]
      exact ((ih.cons y).trans (List.Perm.swap x y ys)).symm.symm

theorem jsSort_perm (cmp : Row → Row → Int) (l : List Row) :
    (jsSort cmp l).Perm l := by
  induction l with
  | nil => exact List.Perm.refl _
  | cons x xs ih =>
    exact (jsInsert_perm cmp x (jsSort cmp xs)).trans (ih.cons x)

theorem jsInsert_filter_pos {p : Row → Bool} {cmp : Row → Row → Int} {x : Row}
    (hpx : p x = true) {m : List Row}
    (hm : ∀ y ∈ m, p y = true → cmp x y = 0) :
    (jsInsert cmp x m).filter p = x :: m.filter p := by
  induction m with
  | nil => simp [jsInsert, hpx]
  | cons y ys ih =>
    by_cases h : cmp x y ≤ 0
    · simp [jsInsert, h, hpx]
    · have hpy : p y = false := by
        cases hpy : p y with
        | true =>
          have := hm y (List.mem_cons_self y ys) hpy
          omega
        | false => rfl
      have hrest : ∀ z ∈ ys, p z = true → cmp x z = 0 :=
        fun z hz => hm z (List.mem_cons_of_mem y hz)
      rw [jsInsert, if_neg h]
      simp [List.filter, hpy, ih hrest]

theorem jsInsert_filter_neg {p : Row → Bool} {cmp : Row → Row → Int} {x : Row}
    (hpx : p x = false) (m : List Row) :
    (jsInsert cmp x m).filter p = m.filter p := by
  induction m with
  | nil => simp [jsInsert, hpx]
  | cons y ys ih =>
    by_cases h : cmp x y ≤ 0
    · simp [jsInsert, h, hpx]
    · rw [jsInsert, if_neg h]
      cases hpy : p y with
      | true => simp [List.filter, hpy, ih]
      | false => simp [List.filter, hpy, ih]

theorem jsSort_stable {p : Row → Bool} {cmp : Row → Row → Int} {l : List Row}
    (h : ∀ a ∈ l, ∀ b ∈ l, p a = true → p b = true → cmp a b = 0) :
    (jsSort cmp l).filter p = l.filter p := by
  induction l with
  | nil => rfl
  | cons x xs ih =>
    have hrest : ∀ a ∈ xs, ∀ b ∈ xs, p a = true → p b = true → cmp a b = 0 :=
      fun a ha b hb => h a (List.mem_cons_of_mem x ha) b (List.mem_cons_of_mem x hb)
    cases hpx : p x with
    | true =>
      have hm : ∀ y ∈ jsSort cmp xs, p y = true → cmp x y = 0 := by
        intro y hy hpy
        have hyxs : y ∈ xs := (jsSort_perm cmp xs).mem_iff.mp hy
        exact h x (List.mem_cons_self x xs) y (List.mem_cons_of_mem x hyxs) hpx hpy
      rw [jsSort, jsInsert_filter_pos hpx hm, ih hrest]
      simp [List.filter, hpx]
    | false =>
      rw [jsSort, jsInsert_filter_neg hpx, ih hrest]
      simp [List.filter, hpx]

/-- C5: sort returns a new table whose schema is the input schema and whose
row data is a freshly ordered copy of the input row sequence (so the input
own row sequence of the input table, being a value the operator only reads, is
unmodified): the output rows are a permutation of the input rows, and the
sort is stable -- any class of rows pairwise equal under the compiled
composite comparator keeps exactly its original relative order. -/
theorem c5_sort_stable_fresh_copy (sortKeys : List (String × Bool))
    (t : TableRep) :
    sortImpl sortKeys [t] = Except.ok
      ⟨t.schema, jsSort (compileSortFunc t.schema sortKeys) t.rowData⟩
    ∧ (jsSort (compileSortFunc t.schema sortKeys) t.rowData).Perm t.rowData
    ∧ ∀ p : Row → Bool,
        (∀ a ∈ t.rowData, ∀ b ∈ t.rowData, p a = true → p b = true →
          compileSortFunc t.schema sortKeys a b = 0) →
        (jsSort (compileSortFunc t.schema sortKeys) t.rowData).filter p =
          t.rowData.filter p :=
  ⟨rfl, jsSort_perm _ _, fun _ h => jsSort_stable h⟩

/-- Example table for the C5 witness: two sort keys, rows 2 and 3 equal on
both keys, so they must keep their relative order. -/
def c5Table : TableRep :=
  ⟨⟨["c1", "c2"], [("c1", ⟨"integer", "C1"⟩), ("c2", ⟨"integer", "C2"⟩)]⟩,
   [[.vint 2, .vint 9], [.vint 1, .vint 5], [.vint 1, .vint 5]]⟩

/-- The sort keys of the C5 witness: c1 ascending, c2 descending. -/
def c5Keys : List (String × Bool) := [("c1", true), ("c2", false)]

/-- A predicate picking the class of rows equal on both sort keys. -/
def c5Class (r : Row) : Bool := decide (rowGet r 0 = .vint 1)

/-- C5 witness: the stability clause of the sort theorem applied to the
concrete table, plus the permutation clause. -/
theorem c5_sort_witness :
    (∀ a ∈ c5Table.rowData, ∀ b ∈ c5Table.rowData,
      c5Class a = true → c5Class b = true →
        compileSortFunc c5Table.schema c5Keys a b = 0)
    ∧ (jsSort (compileSortFunc c5Table.schema c5Keys) c5Table.rowData).filter
        c5Class = c5Table.rowData.filter c5Class :=
  ⟨by decide, (c5_sort_stable_fresh_copy c5Keys c5Table).2.2 c5Class (by decide)⟩

/-! ### C1: value numbering and memoized evaluation -/

/-- One CSE state extends another by appending entries only: exactly how
`buildCSEMap` grows the state, since the signature map and the numbered
expression list are append-only. -/
def StateLe (s t : CSEState) : Prop :=
  ∃ e1 e2, t.invMap = s.invMap ++ e1 ∧ t.valExps = s.valExps ++ e2

theorem StateLe.rfl (s : CSEState) : StateLe s s :=
  ⟨[], [], by simp, by simp⟩

theorem StateLe.trans {s t u : CSEState} (h1 : StateLe s t) (h2 : StateLe t u) :
    StateLe s u := by
  obtain ⟨e1, e2, h1a, h1b⟩ := h1
  obtain ⟨f1, f2, h2a, h2b⟩ := h2
  exact ⟨e1 ++ f1, e2 ++ f2, by rw [h2a, h1a, List.append_assoc],
    by rw [h2b, h1b, List.append_assoc]⟩

mutual
theorem buildCSEMap_mono : ∀ (q : QueryExp) (s : CSEState),
    StateLe s (buildCSEMap q s).2
  | .mk op va ta, s => by
    have hl := buildCSEMapList_mono ta s
    simp only [buildCSEMap]
    split
    · exact hl
    · exact hl.trans ⟨[(expKey op (buildCSEMapList ta s).1 va,
        (buildCSEMapList ta s).2.valExps.length)],
        [⟨.mk op va ta, (buildCSEMapList ta s).1⟩], rfl, rfl⟩

theorem buildCSEMapList_mono : ∀ (qs : List QueryExp) (s : CSEState),
    StateLe s (buildCSEMapList qs s).2
  | [], s => StateLe.rfl s
  | q :: qs, s => by
    have h1 := buildCSEMap_mono q s
    have h2 := buildCSEMapList_mono qs (buildCSEMap q s).2
    simpa only [buildCSEMapList] using h1.trans h2
end

mutual
theorem buildCSEMap_cached : ∀ (q : QueryExp) (s : CSEState) (n : Nat)
    (s1 t : CSEState), buildCSEMap q s = (n, s1) → StateLe s1 t →
    buildCSEMap q t = (n, t)
  | .mk op va ta, s, n, s1, t, h, hle => by
    rcases hr : buildCSEMapList ta s with ⟨nums, s2⟩
    rw [buildCSEMap] at h
    rw [hr] at h
    simp only at h
    cases halo : alookup s2.invMap (expKey op nums va) with
    | some m =>
      rw [halo] at h
      simp only [Prod.mk.injEq] at h
      obtain ⟨hn, hs⟩ := h
      have hle2 : StateLe s2 t := by rw [hs]; exact hle
      have hlist := buildCSEMapList_cached ta s nums s2 t hr hle2
      obtain ⟨e1, e2, he1, he2⟩ := hle2
      have halo2 : alookup t.invMap (expKey op nums va) = some m := by
        rw [he1]
        exact alookup_append_of_some e1 halo
      rw [buildCSEMap, hlist]
      simp only [halo2, hn]
    | none =>
      rw [halo] at h
      simp only [Prod.mk.injEq] at h
      obtain ⟨hn, hs⟩ := h
      have hle2 : StateLe s2 t := StateLe.trans
        ⟨[(expKey op nums va, s2.valExps.length)], [⟨.mk op va ta, nums⟩],
          by rw [← hs], by rw [← hs]⟩ hle
      have hlist := buildCSEMapList_cached ta s nums s2 t hr hle2
      obtain ⟨e1, e2, he1, he2⟩ := hle
      have ht : t.invMap = s2.invMap ++ ((expKey op nums va, n) :: e1) := by
        rw [he1, ← hs]
        simp [hn]
      have halo2 : alookup t.invMap (expKey op nums va) = some n := by
        rw [ht, alookup_append_of_none _ halo]
        simp [alookup]
      rw [buildCSEMap, hlist]
      simp only [halo2]

theorem buildCSEMapList_cached : ∀ (qs : List QueryExp) (s : CSEState)
    (ns : List Nat) (s1 t : CSEState), buildCSEMapList qs s = (ns, s1) →
    StateLe s1 t → buildCSEMapList qs t = (ns, t)
  | [], s, ns, s1, t, h, hle => by
    rw [buildCSEMapList] at h
    simp only [Prod.mk.injEq] at h
    obtain ⟨hn, hs⟩ := h
    subst hn hs
    rw [buildCSEMapList]
  | q :: qs, s, ns, s1, t, h, hle => by
    rcases hr1 : buildCSEMap q s with ⟨n1, t1⟩
    rcases hr2 : buildCSEMapList qs t1 with ⟨ns2, t2⟩
    rw [buildCSEMapList] at h
    rw [hr1] at h
    simp only at h
    rw [hr2] at h
    simp only [Prod.mk.injEq] at h
    obtain ⟨hn, hs⟩ := h
    have hle2 : StateLe t2 t := by rw [hs]; exact hle
    have hle1 : StateLe t1 t := by
      have hm := buildCSEMapList_mono qs t1
      rw [hr2] at hm
      exact StateLe.trans (by simpa using hm) hle2
    have hq := buildCSEMap_cached q s n1 t1 t hr1 hle1
    have hqs := buildCSEMapList_cached qs t1 ns2 t2 t hr2 hle2
    rw [buildCSEMapList, hq]
    simp only
    rw [hqs, ← hn]
end

/-- Decidable well-formedness of the numbered expression list from position
`k` on: the children of every node carry value numbers strictly below the
value number of the node itself, which `buildCSEMap` guarantees by numbering children
first. -/
def wfFrom : Nat → List NumberedExp → Bool
  | _, [] => true
  | i, ne :: rest =>
    ne.tableNums.all (fun m => decide (m < i)) && wfFrom (i + 1) rest

/-- Decidable well-formedness of a numbered expression list. -/
def wfValExps (ve : List NumberedExp) : Bool := wfFrom 0 ve

theorem wfFrom_spec : ∀ (ve : List NumberedExp) (k : Nat), wfFrom k ve = true →
    ∀ (i : Nat) (ne : NumberedExp), ve[i]? = some ne →
    ∀ m ∈ ne.tableNums, m < k + i
  | [], _, _, i, ne, hget, _, _ => by simp at hget
  | ne0 :: rest, k, h, i, ne, hget, m, hm => by
    rw [wfFrom, Bool.and_eq_true] at h
    cases i with
    | zero =>
      simp only [List.getElem?_cons_zero, Option.some.injEq] at hget
      subst hget
      have := List.all_eq_true.mp h.1 m hm
      simpa using this
    | succ j =>
      simp only [List.getElem?_cons_succ] at hget
      have := wfFrom_spec rest (k + 1) h.2 j ne hget m hm
      omega

theorem wfValExps_spec {ve : List NumberedExp} (h : wfValExps ve = true)
    {i : Nat} {ne : NumberedExp} (hget : ve[i]? = some ne) :
    ∀ m ∈ ne.tableNums, m < i := by
  intro m hm
  have := wfFrom_spec ve 0 h i ne hget m hm
  omega

/-- The memoization invariant: the computation of a value number has been started
exactly once if its promise is stored and never otherwise. -/
def GoodState {α : Type} (st : EvalState α) : Prop :=
  ∀ i, st.counts i = if (st.promises i).isSome then 1 else 0

theorem evalTable_ok {α : Type} (eb : NumberedExp → α)
    (ei : NumberedExp → List α → α) (ve : List NumberedExp)
    (hwf : ∀ (i : Nat) (ne : NumberedExp), ve[i]? = some ne →
      ∀ m ∈ ne.tableNums, m < i) :
    ∀ (fuel tableId : Nat) (st : EvalState α), GoodState st → tableId < fuel →
      tableId < ve.length →
      ∃ r st2, evalTable eb ei ve fuel tableId st = (some r, st2)
        ∧ GoodState st2 ∧ st2.promises tableId = some r
        ∧ (∀ k, tableId < k →
            st2.promises k = st.promises k ∧ st2.counts k = st.counts k) := by
  intro fuel
  induction fuel with
  | zero => intro tableId st _ hlt _; omega
  | succ f ih =>
    have listOk : ∀ (tids : List Nat) (st : EvalState α), GoodState st →
        (∀ t ∈ tids, t < f ∧ t < ve.length) →
        ∃ vs st2, evalTableList eb ei ve f tids st = (some vs, st2)
          ∧ GoodState st2
          ∧ (∀ k, (∀ t ∈ tids, t < k) →
              st2.promises k = st.promises k ∧ st2.counts k = st.counts k) := by
      intro tids
      induction tids with
      | nil =>
        intro st hg _
        exact ⟨[], st, by rw [evalTableList], hg, fun k _ => ⟨rfl, rfl⟩⟩
      | cons tid rest ihl =>
        intro st hg htids
        obtain ⟨r, st1, he1, hg1, hst1, hfr1⟩ :=
          ih tid st hg (htids tid (List.mem_cons_self tid rest)).1
            (htids tid (List.mem_cons_self tid rest)).2
        obtain ⟨vs, st2, he2, hg2, hfr2⟩ := ihl st1 hg1
          (fun t ht => htids t (List.mem_cons_of_mem tid ht))
        refine ⟨r :: vs, st2, ?_, hg2, ?_⟩
        · rw [evalTableList, he1]
          simp only
          rw [he2]
        · intro k hk
          have h1 := hfr1 k (hk tid (List.mem_cons_self tid rest))
          have h2 := hfr2 k (fun t ht => hk t (List.mem_cons_of_mem tid ht))
          exact ⟨h2.1.trans h1.1, h2.2.trans h1.2⟩
    intro tableId st hg hlt hlen
    cases hp : st.promises tableId with
    | some r =>
      refine ⟨r, st, ?_, hg, hp, fun k _ => ⟨rfl, rfl⟩⟩
      rw [evalTable, hp]
    | none =>
      have hve : ve[tableId]? = some ve[tableId] := List.getElem?_eq_getElem hlen
      set ne : NumberedExp := ve[tableId] with hnedef
      have hchild : ∀ m ∈ ne.tableNums, m < tableId := hwf tableId ne hve
      by_cases h0 : ne.tableNums.length > 0
      · have htids : ∀ t ∈ ne.tableNums, t < f ∧ t < ve.length := by
          intro m hm
          have hmid := hchild m hm
          omega
        obtain ⟨vs, st1, hel, hg1, hfr⟩ := listOk ne.tableNums st hg htids
        have hfrId := hfr tableId hchild
        refine ⟨ei ne vs, setPromise st1 tableId (ei ne vs), ?_, ?_, ?_, ?_⟩
        · simp only [evalTable, hp, hve, if_pos h0, hel]
        · intro i
          by_cases hi : i = tableId
          · subst hi
            have hc0 : st.counts i = 0 := by
              have := hg i
              rw [hp] at this
              simpa using this
            simp [setPromise, hfrId.2, hc0]
          · have := hg1 i
            simp [setPromise, hi, this]
        · simp [setPromise]
        · intro k hk
          have hall : ∀ t ∈ ne.tableNums, t < k := by
            intro m hm
            have := hchild m hm
            omega
          have := hfr k hall
          have hkne : ¬ (k = tableId) := by omega
          simp [setPromise, hkne, this.1, this.2]
      · refine ⟨eb ne, setPromise st tableId (eb ne), ?_, ?_, ?_, ?_⟩
        · simp only [evalTable, hp, hve, if_neg h0]
        · intro i
          by_cases hi : i = tableId
          · subst hi
            have hc0 : st.counts i = 0 := by
              have := hg i
              rw [hp] at this
              simpa using this
            simp [setPromise, hc0]
          · have := hg i
            simp [setPromise, hi, this]
        · simp [setPromise]
        · intro k hk
          have hkne : ¬ (k = tableId) := by omega
          simp [setPromise, hkne]

/-- C1: (i) buildCSEMap only ever appends to the evaluator state; (ii) once a
query expression has been numbered, numbering a structurally identical
expression from any later (extended) state is a pure cache hit: it returns
the SAME value number and leaves the state untouched, so structurally
identical subexpressions of one tree -- whose traversals chain through
extended states -- share one value number; (iii) evalTable is memoized: from
any state satisfying the once-per-stored-promise invariant, evaluating a
value number succeeds, stores its result, preserves the invariant (so every
computation of every value number is started at most once -- and exactly once if
its result is stored), and a request for an already stored value number
returns exactly the stored result without touching the state or starting
anything. -/
theorem c1_cse_dedup_and_memo :
    (∀ (q : QueryExp) (s : CSEState), StateLe s (buildCSEMap q s).2)
    ∧ (∀ (q : QueryExp) (s : CSEState) (n : Nat) (s1 t : CSEState),
        buildCSEMap q s = (n, s1) → StateLe s1 t → buildCSEMap q t = (n, t))
    ∧ (∀ (α : Type) (eb : NumberedExp → α) (ei : NumberedExp → List α → α)
        (ve : List NumberedExp) (fuel tableId : Nat) (st : EvalState α),
        wfValExps ve = true → GoodState st → tableId < fuel →
        tableId < ve.length →
        (∃ r st2, evalTable eb ei ve fuel tableId st = (some r, st2)
          ∧ GoodState st2
          ∧ st2.promises tableId = some r
          ∧ (∀ j, st2.counts j ≤ 1))
        ∧ (∀ r0, st.promises tableId = some r0 →
            evalTable eb ei ve fuel tableId st = (some r0, st))) := by
  refine ⟨buildCSEMap_mono, buildCSEMap_cached, ?_⟩
  intro α eb ei ve fuel tableId st hwf hg hlt hlen
  constructor
  · obtain ⟨r, st2, he, hg2, hst, _⟩ := evalTable_ok eb ei ve
      (fun i ne hget => wfValExps_spec hwf hget) fuel tableId st hg hlt hlen
    refine ⟨r, st2, he, hg2, hst, ?_⟩
    intro j
    have := hg2 j
    by_cases hj : (st2.promises j).isSome
    · simp [hj] at this
      omega
    · simp [hj] at this
      omega
  · intro r0 hr0
    cases fuel with
    | zero => omega
    | succ f => rw [evalTable, hr0]

/-- A base table-reference query node used by the concrete examples. -/
def baseQ : QueryExp := .mk "table" [.lstr "test1"] []

/-- The numbered expression list of the diamond query
`concat [baseQ, baseQ]`: the shared base node gets value number 0 and the
concat node value number 1 with both children pointing at 0. -/
def demoVE : List NumberedExp :=
  [⟨baseQ, []⟩, ⟨.mk "concat" [] [baseQ, baseQ], [0, 0]⟩]

/-- C1 witness: the memoization clause applied to the concrete diamond DAG
from the fresh evaluation state, and the cache-hit clause applied to a
concrete repeated numbering of the base node. -/
theorem c1_witness :
    wfValExps demoVE = true
    ∧ GoodState (initEvalState Nat)
    ∧ 1 < 2 ∧ 1 < demoVE.length
    ∧ ((∃ r st2, evalTable (fun _ => (0 : Nat)) (fun _ _ => 0) demoVE 2 1
          (initEvalState Nat) = (some r, st2)
        ∧ GoodState st2
        ∧ st2.promises 1 = some r
        ∧ (∀ j, st2.counts j ≤ 1))
      ∧ (∀ r0, (initEvalState Nat).promises 1 = some r0 →
          evalTable (fun _ => (0 : Nat)) (fun _ _ => 0) demoVE 2 1
            (initEvalState Nat) = (some r0, initEvalState Nat)))
    ∧ buildCSEMap baseQ (buildCSEMap baseQ emptyCSE).2 =
        ((buildCSEMap baseQ emptyCSE).1, (buildCSEMap baseQ emptyCSE).2) :=
  ⟨by decide, fun i => rfl, by decide, by decide,
    c1_cse_dedup_and_memo.2.2 Nat (fun _ => 0) (fun _ _ => 0) demoVE 2 1
      (initEvalState Nat) (by decide) (fun i => rfl) (by decide) (by decide),
    c1_cse_dedup_and_memo.2.1 baseQ emptyCSE (buildCSEMap baseQ emptyCSE).1
      (buildCSEMap baseQ emptyCSE).2 (buildCSEMap baseQ emptyCSE).2 rfl
      (StateLe.rfl _)⟩

/-! ### C2: unencodable literal arguments -/

mutual
/-- Erase function identities from a literal: all function values become the
same token.  Two literal lists with equal erasures are exactly the ones
`JSON.stringify` cannot tell apart. -/
def eraseFuncIds : LitVal → LitVal
  | .lfunc _ => .lfunc 0
  | .larr xs => .larr (eraseFuncIdsList xs)
  | .lobj fs => .lobj (eraseFuncIdsFields fs)
  | .lnull => .lnull
  | .lbool b => .lbool b
  | .lint n => .lint n
  | .lstr s => .lstr s

/-- Erase function identities elementwise in a literal array. -/
def eraseFuncIdsList : List LitVal → List LitVal
  | [] => []
  | v :: rest => eraseFuncIds v :: eraseFuncIdsList rest

/-- Erase function identities in the fields of a literal object. -/
def eraseFuncIdsFields : List (String × LitVal) → List (String × LitVal)
  | [] => []
  | (k, v) :: rest => (k, eraseFuncIds v) :: eraseFuncIdsFields rest
end

mutual
theorem jsonOfLit_erase : ∀ v : LitVal,
    jsonOfLit (eraseFuncIds v) = jsonOfLit v
  | .lfunc _ => rfl
  | .lnull => rfl
  | .lbool _ => rfl
  | .lint _ => rfl
  | .lstr _ => rfl
  | .larr xs => by
    rw [eraseFuncIds, jsonOfLit, jsonOfLit, jsonOfLitList_erase xs]
  | .lobj fs => by
    rw [eraseFuncIds, jsonOfLit, jsonOfLit, jsonOfLitFields_erase fs]

theorem jsonOfLitList_erase : ∀ xs : List LitVal,
    jsonOfLitList (eraseFuncIdsList xs) = jsonOfLitList xs
  | [] => rfl
  | v :: rest => by
    rw [eraseFuncIdsList, jsonOfLitList, jsonOfLitList, jsonOfLit_erase v,
      jsonOfLitList_erase rest]

theorem jsonOfLitFields_erase : ∀ fs : List (String × LitVal),
    jsonOfLitFields (eraseFuncIdsFields fs) = jsonOfLitFields fs
  | [] => rfl
  | (k, v) :: rest => by
    rw [eraseFuncIdsFields, jsonOfLitFields, jsonOfLitFields,
      jsonOfLit_erase v, jsonOfLitFields_erase rest]
end

theorem jsonOfArgs_erase_eq {va1 va2 : List LitVal}
    (h : va1.map eraseFuncIds = va2.map eraseFuncIds) :
    jsonOfArgs va1 = jsonOfArgs va2 := by
  have hl : ∀ xs : List LitVal, eraseFuncIdsList xs = xs.map eraseFuncIds := by
    intro xs
    induction xs with
    | nil => rfl
    | cons v rest ih => simp [eraseFuncIdsList, ih]
  have h1 : jsonOfLitList va1 = jsonOfLitList va2 := by
    rw [← jsonOfLitList_erase va1, ← jsonOfLitList_erase va2, hl, hl, h]
  rw [jsonOfArgs, jsonOfArgs, h1]

/-- A second extend node differing from `extFn1` only in its generator
function. -/
def extFn1 : QueryExp :=
  .mk "extend" [.lstr "c", .lobj [("type", .lstr "integer")], .lfunc 0] [baseQ]

/-- An extend node with generator function 1 but otherwise identical to
`extFn1`. -/
def extFn2 : QueryExp :=
  .mk "extend" [.lstr "c", .lobj [("type", .lstr "integer")], .lfunc 1] [baseQ]

/-- C2 counterexample: two DISTINCT extend nodes differing only in their
(unencodable) generator functions receive the SAME value number --
`JSON.stringify` renders a function element of the argument array as `null`,
so the two signatures coincide and buildCSEMap falsely merges the nodes,
contradicting the claimed degrade-to-per-node-uniqueness. -/
theorem c2_counterexample :
    extFn1 ≠ extFn2
    ∧ (buildCSEMap extFn2 (buildCSEMap extFn1 emptyCSE).2).1 =
        (buildCSEMap extFn1 emptyCSE).1 := by
  constructor
  · intro hcontra
    simp [extFn1, extFn2] at hcontra
  · rfl

/-- C2 (amended): for every pair of query nodes that agree on operator tag
and children and whose literal argument lists differ at most in the identity
of embedded function values, buildCSEMap does NOT keep them apart: numbering
the second after the first is a pure cache hit yielding the same value
number with no state growth -- structural deduplication falsely merges nodes
whose unencodable literal arguments differ. -/
theorem c2_unencodable_false_merge (op : String) (va1 va2 : List LitVal)
    (ta : List QueryExp) (s : CSEState) (n : Nat) (s1 : CSEState)
    (herase : va1.map eraseFuncIds = va2.map eraseFuncIds)
    (h : buildCSEMap (.mk op va1 ta) s = (n, s1)) :
    buildCSEMap (.mk op va2 ta) s1 = (n, s1) := by
  rcases hr : buildCSEMapList ta s with ⟨nums, s2⟩
  rw [buildCSEMap] at h
  rw [hr] at h
  simp only at h
  have hkey : expKey op nums va2 = expKey op nums va1 := by
    rw [expKey, expKey, jsonOfArgs_erase_eq herase.symm]
  cases halo : alookup s2.invMap (expKey op nums va1) with
  | some m =>
    rw [halo] at h
    simp only [Prod.mk.injEq] at h
    obtain ⟨hn, hs⟩ := h
    have hle2 : StateLe s2 s1 := by rw [hs]; exact StateLe.rfl s1
    have hlist := buildCSEMapList_cached ta s nums s2 s1 hr hle2
    have halo1 : alookup s1.invMap (expKey op nums va1) = some n := by
      rw [← hs, ← hn]
      exact halo
    rw [buildCSEMap, hlist]
    simp only [hkey, halo1]
  | none =>
    rw [halo] at h
    simp only [Prod.mk.injEq] at h
    obtain ⟨hn, hs⟩ := h
    have hle2 : StateLe s2 s1 := ⟨[(expKey op nums va1, s2.valExps.length)],
      [⟨.mk op va1 ta, nums⟩], by rw [← hs], by rw [← hs]⟩
    have hlist := buildCSEMapList_cached ta s nums s2 s1 hr hle2
    have halo1 : alookup s1.invMap (expKey op nums va1) = some n := by
      rw [← hs]
      rw [alookup_append_of_none _ halo]
      simp [alookup, hn]
    rw [buildCSEMap, hlist]
    simp only [hkey, halo1]

/-- C2 witness: the false-merge theorem applied to the two concrete extend
nodes with different generator functions. -/
theorem c2_witness :
    ([LitVal.lstr "c", .lobj [("type", .lstr "integer")], .lfunc 0].map
        eraseFuncIds
      = [LitVal.lstr "c", .lobj [("type", .lstr "integer")], .lfunc 1].map
        eraseFuncIds)
    ∧ buildCSEMap extFn2 (buildCSEMap extFn1 emptyCSE).2 =
        ((buildCSEMap extFn1 emptyCSE).1, (buildCSEMap extFn1 emptyCSE).2) :=
  ⟨rfl, c2_unencodable_false_merge "extend"
    [.lstr "c", .lobj [("type", .lstr "integer")], .lfunc 0]
    [.lstr "c", .lobj [("type", .lstr "integer")], .lfunc 1]
    [baseQ] emptyCSE (buildCSEMap extFn1 emptyCSE).1
    (buildCSEMap extFn1 emptyCSE).2 rfl rfl⟩

/-! ### C6: groupBy -/

/-- Feed a sequence of rows into a list of accumulators in row order. -/
def foldAccs (ctx : GroupByCtx) (accs : List AccState) (rows : List Row) :
    List AccState :=
  rows.foldl (fun a r => accsPlus a (aggInOf ctx r)) accs

/-- The keys of a group map in insertion order. -/
def gmKeys (gm : GroupMap) : List String := gm.map Prod.fst

/-- The groups created for rows whose key is not among `seen`, in
first-encounter order, each group absorbing every row of its key. -/
def newGroups (ctx : GroupByCtx) (seen : List String) : List Row → GroupMap
  | [] => []
  | r :: rs =>
    if rowKey ctx r ∈ seen then newGroups ctx seen rs
    else (rowKey ctx r, (keyDataOf ctx r,
        foldAccs ctx ctx.initAccs
          ((r :: rs).filter (fun x => decide (rowKey ctx x = rowKey ctx r)))))
      :: newGroups ctx (rowKey ctx r :: seen) rs

/-- The group map after absorbing `rows` into `gm`: each existing group has
absorbed the rows of its key, and the keys not already present form new
groups in first-encounter order. -/
def specExtend (ctx : GroupByCtx) (gm : GroupMap) (rows : List Row) :
    GroupMap :=
  gm.map (fun e => (e.1, (e.2.1,
      foldAccs ctx e.2.2 (rows.filter (fun x => decide (rowKey ctx x = e.1))))))
    ++ newGroups ctx (gmKeys gm) rows

theorem alookup_none_iff {α : Type} (m : List (String × α)) (k : String) :
    alookup m k = none ↔ k ∉ m.map Prod.fst := by
  induction m with
  | nil => simp [alookup]
  | cons e rest ih =>
    by_cases h : e.1 = k
    · simp [alookup, h]
    · rw [alookup, if_neg h, ih]
      simp only [List.map_cons, List.mem_cons]
      constructor
      · intro hn hc
        rcases hc with hc | hc
        · exact h hc.symm
        · exact hn hc
      · intro hn hc
        exact hn (Or.inr hc)

theorem gmKeys_gmUpd (gm : GroupMap) (k : String) (aggIn : List Value) :
    gmKeys (gmUpd gm k aggIn) = gmKeys gm := by
  induction gm with
  | nil => rfl
  | cons e rest ih =>
    rcases e with ⟨k2, kd, accs⟩
    by_cases h : k2 = k
    · simp [gmUpd, h, gmKeys]
    · simp only [gmUpd, if_neg h]
      simpa [gmKeys] using ih

theorem foldAccs_cons (ctx : GroupByCtx) (accs : List AccState) (r : Row)
    (rows : List Row) :
    foldAccs ctx accs (r :: rows) =
      foldAccs ctx (accsPlus accs (aggInOf ctx r)) rows := rfl

theorem newGroups_seen_ext (ctx : GroupByCtx) :
    ∀ (rows : List Row) (s1 s2 : List String),
      (∀ x, x ∈ s1 ↔ x ∈ s2) → newGroups ctx s1 rows = newGroups ctx s2 rows
  | [], _, _, _ => rfl
  | r :: rs, s1, s2, hext => by
    by_cases h : rowKey ctx r ∈ s1
    · rw [newGroups, if_pos h, newGroups, if_pos ((hext _).mp h),
        newGroups_seen_ext ctx rs s1 s2 hext]
    · have h2 : rowKey ctx r ∉ s2 := fun hc => h ((hext _).mpr hc)
      rw [newGroups, if_neg h, newGroups, if_neg h2,
        newGroups_seen_ext ctx rs (rowKey ctx r :: s1) (rowKey ctx r :: s2)
          (by intro x; simp [hext x])]

theorem map_fold_gmUpd (ctx : GroupByCtx) (r : Row) (rs : List Row) :
    ∀ (gm : GroupMap), (gmKeys gm).Nodup → rowKey ctx r ∈ gmKeys gm →
    (gmUpd gm (rowKey ctx r) (aggInOf ctx r)).map (fun e => (e.1, (e.2.1,
        foldAccs ctx e.2.2 (rs.filter (fun x => decide (rowKey ctx x = e.1))))))
      = gm.map (fun e => (e.1, (e.2.1,
          foldAccs ctx e.2.2
            ((r :: rs).filter (fun x => decide (rowKey ctx x = e.1))))))
  | [], _, hmem => by simp [gmKeys] at hmem
  | ⟨k2, kd, accs⟩ :: rest, hnd, hmem => by
    have hndc := List.nodup_cons.mp (show (k2 :: gmKeys rest).Nodup from hnd)
    by_cases h : k2 = rowKey ctx r
    · rw [gmUpd, if_pos h]
      simp only [List.map_cons]
      refine congrArg₂ List.cons ?_ ?_
      · have hfil : (r :: rs).filter (fun x => decide (rowKey ctx x = k2)) =
            r :: rs.filter (fun x => decide (rowKey ctx x = k2)) := by
          simp [List.filter_cons, h]
        rw [hfil, foldAccs_cons]
      · refine List.map_congr_left (fun e he => ?_)
        have hne : ¬ (rowKey ctx r = e.1) := by
          intro hc
          refine hndc.1 ?_
          rw [h, hc]
          exact List.mem_map_of_mem Prod.fst he
        have hfil : (r :: rs).filter (fun x => decide (rowKey ctx x = e.1)) =
            rs.filter (fun x => decide (rowKey ctx x = e.1)) := by
          simp [List.filter_cons, hne]
        rw [hfil]
    · have hmem2 : rowKey ctx r ∈ gmKeys rest := by
        rcases List.mem_cons.mp
            (show rowKey ctx r ∈ k2 :: gmKeys rest from hmem) with hc | hc
        · exact absurd hc.symm h
        · exact hc
      rw [gmUpd, if_neg h]
      simp only [List.map_cons]
      refine congrArg₂ List.cons ?_ (map_fold_gmUpd ctx r rs rest hndc.2 hmem2)
      have hne2 : ¬ (rowKey ctx r = k2) := fun hc => h hc.symm
      have hfil : (r :: rs).filter (fun x => decide (rowKey ctx x = k2)) =
          rs.filter (fun x => decide (rowKey ctx x = k2)) := by
        simp [List.filter_cons, hne2]
      rw [hfil]

theorem gbFold_spec (ctx : GroupByCtx) :
    ∀ (rows : List Row) (gm : GroupMap), (gmKeys gm).Nodup →
      rows.foldl (gbStep ctx) gm = specExtend ctx gm rows
  | [], gm, _ => by
    simp [specExtend, newGroups, foldAccs]
  | r :: rs, gm, hnd => by
    rw [List.foldl_cons]
    cases halo : alookup gm (rowKey ctx r) with
    | none =>
      have hk : rowKey ctx r ∉ gmKeys gm := (alookup_none_iff gm _).mp halo
      have hstep : gbStep ctx gm r = gm ++ [(rowKey ctx r, (keyDataOf ctx r,
          accsPlus ctx.initAccs (aggInOf ctx r)))] := by
        simp only [gbStep, halo]
      have hkeys : gmKeys (gm ++ [(rowKey ctx r, (keyDataOf ctx r,
          accsPlus ctx.initAccs (aggInOf ctx r)))]) =
          gmKeys gm ++ [rowKey ctx r] := by
        simp [gmKeys]
      have hnd2 : (gmKeys (gm ++ [(rowKey ctx r, (keyDataOf ctx r,
          accsPlus ctx.initAccs (aggInOf ctx r)))])).Nodup := by
        rw [hkeys, List.nodup_append]
        refine ⟨hnd, List.nodup_singleton _, ?_⟩
        intro a ha hb
        rw [List.mem_singleton] at hb
        exact hk (hb ▸ ha)
      rw [hstep, gbFold_spec ctx rs _ hnd2]
      rw [specExtend, specExtend, hkeys, List.map_append, List.append_assoc]
      refine congrArg₂ List.append ?_ ?_
      · refine (List.map_congr_left (fun e he => ?_)).symm
        have hne : ¬ (rowKey ctx r = e.1) := by
          intro hc
          refine hk ?_
          rw [hc]
          exact List.mem_map_of_mem Prod.fst he
        have hfil : (r :: rs).filter (fun x => decide (rowKey ctx x = e.1)) =
            rs.filter (fun x => decide (rowKey ctx x = e.1)) := by
          simp [List.filter_cons, hne]
        rw [hfil]
      · rw [newGroups, if_neg hk]
        have hfil : (r :: rs).filter
            (fun x => decide (rowKey ctx x = rowKey ctx r)) =
            r :: rs.filter (fun x => decide (rowKey ctx x = rowKey ctx r)) := by
          simp [List.filter_cons]
        rw [hfil, foldAccs_cons]
        refine congrArg₂ List.cons rfl ?_
        exact newGroups_seen_ext ctx rs (gmKeys gm ++ [rowKey ctx r])
          (rowKey ctx r :: gmKeys gm) (by intro x; simp [or_comm])
    | some v =>
      have hk : rowKey ctx r ∈ gmKeys gm := by
        by_contra hc
        rw [(alookup_none_iff gm _).mpr hc] at halo
        cases halo
      have hstep : gbStep ctx gm r =
          gmUpd gm (rowKey ctx r) (aggInOf ctx r) := by
        simp only [gbStep, halo]
      have hnd2 : (gmKeys (gmUpd gm (rowKey ctx r) (aggInOf ctx r))).Nodup := by
        rw [gmKeys_gmUpd]
        exact hnd
      rw [hstep, gbFold_spec ctx rs _ hnd2]
      rw [specExtend, specExtend, gmKeys_gmUpd,
        map_fold_gmUpd ctx r rs gm hnd hk]
      refine congrArg (List.append _) ?_
      rw [newGroups, if_pos hk]

/-- Modelled from the spec: the distinct grouping keys of the rows whose key
is not among `seen`, in the order keys are first encountered. -/
def firstKeysExcl (ctx : GroupByCtx) (seen : List String) :
    List Row → List String
  | [] => []
  | r :: rs =>
    if rowKey ctx r ∈ seen then firstKeysExcl ctx seen rs
    else rowKey ctx r :: firstKeysExcl ctx (rowKey ctx r :: seen) rs

/-- Modelled from the spec: the emitted output row for one grouping key --
the key values (those of the first row of the group) followed by the finalized
accumulator values obtained by feeding every row of the group, in row order,
into fresh accumulators. -/
def specGroupRow (ctx : GroupByCtx) (rows : List Row) (k : String) :
    List Value :=
  let grp := rows.filter (fun x => decide (rowKey ctx x = k))
  (match grp.head? with
   | some r => keyDataOf ctx r
   | none => []) ++ (foldAccs ctx ctx.initAccs grp).map AccState.finalize

/-- Modelled from the spec: group-by emits one output row per distinct
grouping key, in the order keys were first encountered in the input. -/
def groupBySpecRows (ctx : GroupByCtx) (rows : List Row) : List (List Value) :=
  (firstKeysExcl ctx [] rows).map (specGroupRow ctx rows)

theorem firstKeysExcl_not_seen (ctx : GroupByCtx) :
    ∀ (rows : List Row) (seen : List String) (k : String),
      k ∈ firstKeysExcl ctx seen rows → k ∉ seen
  | [], _, _, hm => by simp [firstKeysExcl] at hm
  | r :: rs, seen, k, hm => by
    by_cases h : rowKey ctx r ∈ seen
    · rw [firstKeysExcl, if_pos h] at hm
      exact firstKeysExcl_not_seen ctx rs seen k hm
    · rw [firstKeysExcl, if_neg h] at hm
      rcases List.mem_cons.mp hm with hc | hc
      · subst hc
        exact h
      · have hrec := firstKeysExcl_not_seen ctx rs (rowKey ctx r :: seen) k hc
        intro hkseen
        exact hrec (List.mem_cons_of_mem _ hkseen)

theorem newGroups_bridge (ctx : GroupByCtx) :
    ∀ (rows : List Row) (seen : List String),
      (newGroups ctx seen rows).map gmOutRow =
        (firstKeysExcl ctx seen rows).map (specGroupRow ctx rows)
  | [], _ => rfl
  | r :: rs, seen => by
    by_cases h : rowKey ctx r ∈ seen
    · rw [newGroups, if_pos h, firstKeysExcl, if_pos h,
        newGroups_bridge ctx rs seen]
      refine List.map_congr_left (fun k hk => ?_)
      have hkne : ¬ (rowKey ctx r = k) := by
        intro hc
        exact (firstKeysExcl_not_seen ctx rs seen k hk) (hc ▸ h)
      have hfil : (r :: rs).filter (fun x => decide (rowKey ctx x = k)) =
          rs.filter (fun x => decide (rowKey ctx x = k)) := by
        simp [List.filter_cons, hkne]
      rw [specGroupRow, specGroupRow, hfil]
    · rw [newGroups, if_neg h, firstKeysExcl, if_neg h]
      simp only [List.map_cons]
      refine congrArg₂ List.cons ?_ ?_
      · have hfil : (r :: rs).filter
            (fun x => decide (rowKey ctx x = rowKey ctx r)) =
            r :: rs.filter (fun x => decide (rowKey ctx x = rowKey ctx r)) := by
          simp [List.filter_cons]
        rw [specGroupRow, hfil]
        rfl
      · rw [newGroups_bridge ctx rs (rowKey ctx r :: seen)]
        refine List.map_congr_left (fun k hk => ?_)
        have hkmem := firstKeysExcl_not_seen ctx rs (rowKey ctx r :: seen) k hk
        have hkne : ¬ (rowKey ctx r = k) := by
          intro hc
          refine hkmem ?_
          rw [← hc]
          exact List.mem_cons_self _ _
        have hfil : (r :: rs).filter (fun x => decide (rowKey ctx x = k)) =
            rs.filter (fun x => decide (rowKey ctx x = k)) := by
          simp [List.filter_cons, hkne]
        rw [specGroupRow, specGroupRow, hfil]

/-- C6: for every input table on which the permutations and accumulator
constructors succeed, groupBy produces the schema `keyColumns ++
aggregateColumns` (metadata carried over) and exactly the spec rows: one row
per distinct encoded grouping key, ordered by first encounter, each row the
first-encounter key values of the group followed by the finalized
accumulators fed with the rows of the group in input order. -/
theorem c6_groupby_spec (cols aggs : List String) (t : TableRep)
    (keyPerm aggPerm : List Nat) (initAccs : List AccState)
    (hk : calcProjectionPermutation t.schema cols = Except.ok keyPerm)
    (ha : calcProjectionPermutation t.schema aggs = Except.ok aggPerm)
    (hm : mkAggAccs t.schema aggs = Except.ok initAccs) :
    groupByImpl cols aggs [t] = Except.ok
      ⟨⟨cols ++ aggs, t.schema.columnMetadata⟩,
        groupBySpecRows ⟨keyPerm, aggPerm, initAccs⟩ t.rowData⟩ := by
  cases hrow : t.rowData.isEmpty with
  | true =>
    have hnil : t.rowData = [] := by
      cases hl : t.rowData with
      | nil => rfl
      | cons a as => rw [hl] at hrow; cases hrow
    simp [groupByImpl, hk, ha, hnil, Except.bind, Except.map, groupBySpecRows,
      firstKeysExcl]
  | false =>
    have hfold : (t.rowData.foldl (gbStep ⟨keyPerm, aggPerm, initAccs⟩) []).map
        gmOutRow = groupBySpecRows ⟨keyPerm, aggPerm, initAccs⟩ t.rowData := by
      rw [gbFold_spec ⟨keyPerm, aggPerm, initAccs⟩ t.rowData []
        (by simp [gmKeys])]
      have hsp : specExtend ⟨keyPerm, aggPerm, initAccs⟩ [] t.rowData =
          newGroups ⟨keyPerm, aggPerm, initAccs⟩ [] t.rowData := by
        simp [specExtend, gmKeys]
      rw [hsp, newGroups_bridge]
      rfl
    simp [groupByImpl, hk, ha, hm, hrow, Except.bind, Except.map, hfold]

/-- Example table for the C6 witness: the spec example rows grouped by k
summing v. -/
def c6Table : TableRep :=
  ⟨⟨["k", "v"], [("k", ⟨"text", "K"⟩), ("v", ⟨"integer", "V"⟩)]⟩,
   [[.vstr "x", .vint 1], [.vstr "x", .vint 2], [.vstr "y", .vint 5]]⟩

/-- C6 witness: the groupBy theorem applied to the spec example, plus the
evaluation of the spec rows to the expected concrete result
(x maps to 3, then y maps to 5, in first-encounter order). -/
theorem c6_groupby_witness :
    (calcProjectionPermutation c6Table.schema ["k"] = Except.ok [0])
    ∧ (calcProjectionPermutation c6Table.schema ["v"] = Except.ok [1])
    ∧ (mkAggAccs c6Table.schema ["v"] = Except.ok [.sumA (.vint 0)])
    ∧ groupByImpl ["k"] ["v"] [c6Table] = Except.ok
        ⟨⟨["k"] ++ ["v"], c6Table.schema.columnMetadata⟩,
          groupBySpecRows ⟨[0], [1], [.sumA (.vint 0)]⟩ c6Table.rowData⟩
    ∧ groupBySpecRows ⟨[0], [1], [.sumA (.vint 0)]⟩ c6Table.rowData =
        [[.vstr "x", .vint 3], [.vstr "y", .vint 5]] :=
  ⟨rfl, rfl, rfl,
    c6_groupby_spec ["k"] ["v"] c6Table [0] [1] [.sumA (.vint 0)] rfl rfl rfl,
    by decide⟩

end Reltab
